import Mathlib

/-!
# Verification of the pie-chart slice-geometry computation

Shallow embedding of the numeric and string logic of the stacked
pie-chart component (`PieChart.vue` and its radial-gradient variant).
JavaScript numbers are modelled by exact rationals `ℚ` (reals `ℝ` where
the circle constant π enters); the one place where division by zero
matters is modelled by an explicit JavaScript-number type `JSNum` that
records the non-finite results `NaN` and `±Infinity` of `/`.
Strings are modelled by `String` / `List Char`.
-/

namespace PieChart

/-- The `PieData` record from `types/chart.d.ts`:
`{ label: string, quantity: number, color: string }`. -/
structure PieData where
  label : String
  quantity : ℚ
  color : String
  deriving Repr, DecidableEq

/-- `const radius = 16` -/
def radius : ℚ := 16

/-- `const viewbox = radius * 2` -/
def viewbox : ℚ := radius * 2

/-- `const strokeWidth = 23` -/
def strokeWidth : ℚ := 23

/-- `const circumference = 2 * Math.PI * radius` -/
noncomputable def circumference : ℝ := 2 * Real.pi * (radius : ℝ)

/-- `const minRadiusMask = radius - props.data.length` -/
def minRadiusMask (data : List PieData) : ℚ := radius - data.length

/-- The radius bound to each mask circle in the template:
`:r="minRadiusMask + i"` for the slice at position `i`. -/
def maskRadius (data : List PieData) (i : ℕ) : ℚ := minRadiusMask data + i

/-- `totalPercentage`: `props.data.reduce((acc, element) => acc + element.quantity, 0)`. -/
def totalPercentage (data : List PieData) : ℚ :=
  data.foldl (fun accumulator element => accumulator + element.quantity) 0

/-- JavaScript number results distinguishing the non-finite values
produced by division by zero. -/
inductive JSNum where
  | num (q : ℚ)
  | nan
  | posInf
  | negInf
  deriving Repr, DecidableEq

/-- JavaScript division `a / b` on (finite) numbers: `0 / 0` is `NaN`,
`a / 0` for `a ≠ 0` is a signed infinity, otherwise exact division. -/
def jsDiv (a b : ℚ) : JSNum :=
  if b = 0 then
    if a = 0 then JSNum.nan else if 0 < a then JSNum.posInf else JSNum.negInf
  else JSNum.num (a / b)

/-- `getSinglePercentage` with JavaScript division semantics:
`(quantity * 100) / totalPercentage.value`. -/
def getSinglePercentageJS (data : List PieData) (quantity : ℚ) : JSNum :=
  jsDiv (quantity * 100) (totalPercentage data)

/-- `getSinglePercentage = (quantity) => (quantity * 100) / totalPercentage.value`,
as an exact rational (agrees with `getSinglePercentageJS` whenever the
total is nonzero, see `getSinglePercentageJS_eq_num`). -/
def getSinglePercentage (data : List PieData) (quantity : ℚ) : ℚ :=
  quantity * 100 / totalPercentage data

/-- `getSlice = (quantity) => (circumference * getSinglePercentage(quantity)) / 100`. -/
noncomputable def getSlice (data : List PieData) (quantity : ℚ) : ℝ :=
  circumference * ((getSinglePercentage data quantity : ℚ) : ℝ) / 100

/-- `getRotate(index)`: the while loop
`while (counter < index) { angle += (getSinglePercentage(props.data[counter].quantity) / 100) * 360 }`
accumulates one term per position strictly below `index`.  The loop body
reads `props.data[counter]` with no bounds check; the embedding indexes
with `List.getElem?` and returns `none` when any access is out of bounds. -/
def getRotate? (data : List PieData) : ℕ → Option ℚ
  | 0 => some 0
  | n + 1 => do
      let angle ← getRotate? data n
      let d ← data[n]?
      pure (angle + getSinglePercentage data d.quantity / 100 * 360)

/-- `getDelay = (index) => 0.5 + index / 3` (the code interpolates this
number into a string with the unit suffix `s`). -/
def getDelay (index : ℕ) : ℚ := 1 / 2 + (index : ℚ) / 3

/-- Decimal digits (most significant first) of a natural number, with
explicit fuel; the fuel `n + 1` is always enough for `n`. -/
def natToCharsAux : ℕ → ℕ → List Char
  | 0, _ => []
  | fuel + 1, n =>
    if n = 0 then [] else natToCharsAux fuel (n / 10) ++ [Nat.digitChar (n % 10)]

/-- The decimal string a JavaScript template literal produces for a
(natural-number) index, as in `${index}`. -/
def natToString (n : ℕ) : String :=
  if n = 0 then "0" else ⟨natToCharsAux (n + 1) n⟩

/-- The string a JavaScript template literal produces for an integer. -/
def intToString (n : Int) : String :=
  if n < 0 then ⟨'-' :: (natToString n.natAbs).data⟩ else natToString n.natAbs

/-- `label.replace(" ", "-")` with a single-character pattern:
JavaScript `String.prototype.replace` with a string pattern replaces
only the FIRST occurrence. -/
def replaceFirstChar (pat rep : Char) : List Char → List Char
  | [] => []
  | c :: cs => if c = pat then rep :: cs else c :: replaceFirstChar pat rep cs

/-- `getId = (label, index) => ` followed by the template
`${label.replace(" ", "-")}-${index}` (the radial-gradient variant of
the component; the base variant omits the index). -/
def getId (label : String) (index : ℕ) : String :=
  ⟨replaceFirstChar ' ' '-' label.data ++ '-' :: (natToString index).data⟩

/-- `color.split("%")` for the single-character separator `%`:
JavaScript `String.prototype.split`, always returning at least one
(possibly empty) part. -/
def jsSplitChar (sep : Char) : List Char → List (List Char)
  | [] => [[]]
  | c :: cs =>
    match jsSplitChar sep cs with
    | [] => [[]]
    | p :: ps => if c = sep then [] :: p :: ps else (c :: p) :: ps

/-- The leading-whitespace skipping of `parseInt`. -/
def jsSkipWs : List Char → List Char
  | [] => []
  | c :: cs => if c = ' ' ∨ c = '\t' ∨ c = '\n' ∨ c = '\r' then jsSkipWs cs else c :: cs

/-- Value of a list of decimal digit characters, most significant first. -/
def decimalVal (l : List Char) : ℕ :=
  l.foldl (fun a c => a * 10 + (c.toNat - 48)) 0

/-- Value of a list of hexadecimal digit characters. -/
def hexVal (l : List Char) : ℕ :=
  l.foldl (fun a c =>
    a * 16 + (if c.toNat ≤ 57 then c.toNat - 48
      else if c.toNat ≤ 70 then c.toNat - 55 else c.toNat - 87)) 0

/-- A hexadecimal digit character. -/
def isHexDigitChar (c : Char) : Bool :=
  c.isDigit || ('a' ≤ c && c ≤ 'f') || ('A' ≤ c && c ≤ 'F')

/-- The digits-consuming core of `parseInt` (after whitespace and sign):
a `0x`/`0X` prefix switches to hexadecimal, otherwise the longest
leading run of decimal digits is read; no digits means `NaN` (`none`). -/
def jsParseIntNat (l : List Char) : Option ℕ :=
  match l with
  | '0' :: 'x' :: r =>
      if (r.takeWhile isHexDigitChar) = [] then none
      else some (hexVal (r.takeWhile isHexDigitChar))
  | '0' :: 'X' :: r =>
      if (r.takeWhile isHexDigitChar) = [] then none
      else some (hexVal (r.takeWhile isHexDigitChar))
  | _ =>
      if (l.takeWhile Char.isDigit) = [] then none
      else some (decimalVal (l.takeWhile Char.isDigit))

/-- JavaScript `parseInt` on a string: skip leading whitespace, read an
optional sign, then digits; `none` models the `NaN` result. -/
def jsParseInt (s : List Char) : Option Int :=
  match jsSkipWs s with
  | '-' :: r => (jsParseIntNat r).map (fun n => -(n : Int))
  | '+' :: r => (jsParseIntNat r).map (fun n => (n : Int))
  | r => (jsParseIntNat r).map (fun n => (n : Int))

/-- Rendering of a JavaScript number into a template literal: the
`NaN` produced by a failed `parseInt` prints as `"NaN"`. -/
def jsNumToString (v : Option Int) : List Char :=
  match v with
  | none => "NaN".data
  | some n => (intToString n).data

/-- `colorBrightness` from the radial-gradient variant:
`colorSplit = color.split("%")`;
`lightness = parseInt(colorSplit[1]) > 30 ? parseInt(colorSplit[1]) - 30 : parseInt(colorSplit[1]) + 20`;
result template: `${colorSplit[0]}% ${lightness}% ${colorSplit[2]}`.
An out-of-range `colorSplit[i]` is JavaScript `undefined`:
`parseInt(undefined)` is `NaN` (modelled by `none`), and `undefined`
interpolates as the text `"undefined"`; `NaN > 30` is false and
`NaN + 20` is `NaN`, so a `none` lightness stays `none`. -/
def colorBrightness (color : String) : String :=
  let colorSplit := jsSplitChar '%' color.data
  let parsed : Option Int := (colorSplit[1]?).bind jsParseInt
  let lightness : Option Int :=
    match parsed with
    | some v => some (if v > 30 then v - 30 else v + 20)
    | none => none
  ⟨(colorSplit[0]?.getD []) ++ "% ".data ++ jsNumToString lightness ++
    "% ".data ++ (colorSplit[2]?.getD "undefined".data)⟩

/-- Modelled from the spec: the spec's `MalformedColorToken` error rule —
"color string does not parse into the expected component structure when
brightness derivation is requested — should fail loudly (reject input)
rather than silently produce an invalid color".  The input is accepted
only when it splits into exactly three `%`-separated components whose
middle component parses as an integer; otherwise it is rejected
(`none`).  This operation is absent from the source, which never
rejects. -/
def colorBrightnessSpec (color : String) : Option String :=
  match jsSplitChar '%' color.data with
  | [p0, p1, p2] =>
      match jsParseInt p1 with
      | some v =>
          some ⟨p0 ++ "% ".data ++
            (intToString (if v > 30 then v - 30 else v + 20)).data ++
            "% ".data ++ p2⟩
      | none => none
  | _ => none

end PieChart

namespace PieChart

/-- The fold computing `totalPercentage` is the sum of the quantities. -/
theorem totalPercentage_eq_sum (data : List PieData) :
    totalPercentage data = (data.map PieData.quantity).sum := by
  have h : ∀ (l : List PieData) (a : ℚ),
      l.foldl (fun accumulator element => accumulator + element.quantity) a =
        a + (l.map PieData.quantity).sum := by
    intro l
    induction l with
    | nil => intro a; simp
    | cons x xs ih => intro a; simp [ih, add_assoc]
  simpa using h data 0

/-- With a nonzero total, JavaScript division is exact division. -/
theorem getSinglePercentageJS_eq_num (data : List PieData) (q : ℚ)
    (h : totalPercentage data ≠ 0) :
    getSinglePercentageJS data q = JSNum.num (getSinglePercentage data q) := by
  simp [getSinglePercentageJS, jsDiv, getSinglePercentage, h]

/-- Positive quantities on a nonempty list give a positive total. -/
theorem totalPercentage_pos (data : List PieData) (hne : data ≠ [])
    (hpos : ∀ d ∈ data, 0 < d.quantity) : 0 < totalPercentage data := by
  rw [totalPercentage_eq_sum]
  refine List.sum_pos _ ?_ ?_
  · intro q hq
    obtain ⟨d, hd, rfl⟩ := List.mem_map.mp hq
    exact hpos d hd
  · simpa using hne

set_option maxRecDepth 4000 in
/-- The accumulated angle of `getRotate` is the sum, over the prefix of
the data strictly before the index, of the per-slice angles. -/
theorem getRotate?_eq_sum (data : List PieData) :
    ∀ i, i ≤ data.length → getRotate? data i =
      some (((data.take i).map
        (fun d => getSinglePercentage data d.quantity / 100 * 360)).sum) := by
  intro i
  induction i with
  | zero => intro _; simp [getRotate?]
  | succ n ih =>
      intro h
      have hn : n < data.length := Nat.lt_of_succ_le h
      have hgr : getRotate? data (n + 1) =
          (getRotate? data n).bind (fun angle =>
            (data[n]?).bind (fun d =>
              some (angle + getSinglePercentage data d.quantity / 100 * 360))) :=
        rfl
      rw [hgr, ih (Nat.le_of_lt hn), List.getElem?_eq_getElem hn]
      simp only [Option.some_bind]
      rw [List.take_succ, List.map_append, List.sum_append,
        List.getElem?_eq_getElem hn]
      simp

/-- A prefix sum of a list of nonnegative rationals is at most the full sum. -/
theorem sum_take_le_sum {l : List ℚ} (h : ∀ x ∈ l, 0 ≤ x) (i : ℕ) :
    (l.take i).sum ≤ l.sum := by
  conv_rhs => rw [← List.take_append_drop i l]
  rw [List.sum_append]
  have hd : 0 ≤ (l.drop i).sum :=
    List.sum_nonneg (fun x hx => h x (List.mem_of_mem_drop hx))
  linarith

/-- Each per-slice angle term is nonnegative when quantities and the
total are positive. -/
theorem angle_term_nonneg (data : List PieData)
    (hT : 0 < totalPercentage data) (d : PieData) (hd : d ∈ data)
    (hpos : ∀ d ∈ data, 0 < d.quantity) :
    0 ≤ getSinglePercentage data d.quantity / 100 * 360 := by
  have h1 : 0 ≤ d.quantity * 100 :=
    mul_nonneg (le_of_lt (hpos d hd)) (by norm_num)
  have h2 : 0 ≤ getSinglePercentage data d.quantity :=
    div_nonneg h1 hT.le
  have h3 : 0 ≤ getSinglePercentage data d.quantity / 100 :=
    div_nonneg h2 (by norm_num)
  exact mul_nonneg h3 (by norm_num)

/-- The sum of all per-slice angles is the full circle, `360` degrees. -/
theorem sum_angles_eq_360 (data : List PieData)
    (hT : totalPercentage data ≠ 0) :
    ((data.map (fun d => getSinglePercentage data d.quantity / 100 * 360)).sum) =
      360 := by
  have hcongr : data.map (fun d => getSinglePercentage data d.quantity / 100 * 360) =
      data.map (fun d => d.quantity * (360 / totalPercentage data)) := by
    apply List.map_congr_left
    intro d _
    unfold getSinglePercentage
    ring
  rw [hcongr]
  have hmul : (data.map (fun d => d.quantity * (360 / totalPercentage data))).sum =
      (data.map PieData.quantity).sum * (360 / totalPercentage data) :=
    List.sum_map_mul_right data PieData.quantity (360 / totalPercentage data)
  rw [hmul, ← totalPercentage_eq_sum]
  field_simp

/-- C2: the rotation at index `i` is the sum, over all entries strictly
before `i`, of `(quantity * 100 / total) / 100 * 360` degrees; it is `0`
at index `0`, non-decreasing in the index, and `360` at the index equal
to the number of slices. -/
theorem c2_getRotate_formula (data : List PieData) (hne : data ≠ [])
    (hpos : ∀ d ∈ data, 0 < d.quantity) :
    (∀ i ≤ data.length, getRotate? data i =
        some (((data.take i).map
          (fun d => d.quantity * 100 / totalPercentage data / 100 * 360)).sum)) ∧
    getRotate? data 0 = some 0 ∧
    (∀ i j, i ≤ j → j ≤ data.length → ∀ a b,
        getRotate? data i = some a → getRotate? data j = some b → a ≤ b) ∧
    getRotate? data data.length = some 360 := by
  have hT : 0 < totalPercentage data := totalPercentage_pos data hne hpos
  refine ⟨fun i hi => getRotate?_eq_sum data i hi, rfl, ?_, ?_⟩
  · intro i j hij hj a b ha hb
    rw [getRotate?_eq_sum data i (le_trans hij hj)] at ha
    rw [getRotate?_eq_sum data j hj] at hb
    injection ha with ha
    injection hb with hb
    subst ha hb
    have hstep : data.take i = (data.take j).take i := by
      rw [List.take_take, Nat.min_eq_left hij]
    rw [hstep, List.map_take]
    apply sum_take_le_sum
    intro x hx
    obtain ⟨d, hd, rfl⟩ := List.mem_map.mp hx
    exact angle_term_nonneg data hT d (List.mem_of_mem_take hd) hpos
  · rw [getRotate?_eq_sum data data.length (le_refl _), List.take_length,
      sum_angles_eq_360 data hT.ne']

/-- Witness for C2: a single slice of quantity `1` rotates a full `360`
degrees at index `1`. -/
theorem c2_getRotate_formula_witness :
    ([PieData.mk "Lorem" 1 "c1"] : List PieData) ≠ [] ∧
    (∀ d ∈ ([PieData.mk "Lorem" 1 "c1"] : List PieData), 0 < d.quantity) ∧
    getRotate? [PieData.mk "Lorem" 1 "c1"]
      ([PieData.mk "Lorem" 1 "c1"] : List PieData).length = some 360 :=
  ⟨by decide, by decide,
   (c2_getRotate_formula [PieData.mk "Lorem" 1 "c1"] (by decide)
      (by decide)).2.2.2⟩

/-- Factoring the constant `circumference * _ / 100` out of a sum of
slice lengths. -/
theorem sum_slices_factored (l : List PieData) (g : PieData → ℚ) :
    (l.map (fun d => circumference * ((g d : ℚ) : ℝ) / 100)).sum =
      circumference * (((l.map g).sum : ℚ) : ℝ) / 100 := by
  induction l with
  | nil => simp
  | cons x xs ih =>
      simp only [List.map_cons, List.sum_cons, ih]
      push_cast
      ring

/-- The normalized percentages of all slices sum to `100` when the
total is nonzero. -/
theorem sum_percentages_eq_100 (data : List PieData)
    (hT : totalPercentage data ≠ 0) :
    (data.map (fun d => getSinglePercentage data d.quantity)).sum = 100 := by
  have hcongr : data.map (fun d => getSinglePercentage data d.quantity) =
      data.map (fun d => d.quantity * (100 / totalPercentage data)) := by
    apply List.map_congr_left
    intro d _
    unfold getSinglePercentage
    ring
  rw [hcongr,
    List.sum_map_mul_right data PieData.quantity (100 / totalPercentage data),
    ← totalPercentage_eq_sum]
  field_simp

/-- C1: for non-empty inputs with positive quantities the dash lengths
sum to `circumference * (sum of normalized percentages) / 100`, which is
exactly the circumference `2 * π * 16`, whatever the raw total; and for
quantities `[1, 1, 1, 1]` every slice is exactly a quarter of the
circumference. -/
theorem c1_slice_sum (data : List PieData) (hne : data ≠ [])
    (hpos : ∀ d ∈ data, 0 < d.quantity) :
    (data.map (fun d => getSlice data d.quantity)).sum =
        circumference *
          (((data.map (fun d => getSinglePercentage data d.quantity)).sum : ℚ) : ℝ)
          / 100 ∧
    (data.map (fun d => getSlice data d.quantity)).sum = circumference ∧
    circumference = 2 * Real.pi * 16 ∧
    (data.map PieData.quantity = [1, 1, 1, 1] →
      ∀ d ∈ data, getSlice data d.quantity = circumference / 4) := by
  have hT : 0 < totalPercentage data := totalPercentage_pos data hne hpos
  have hfact : (data.map (fun d => getSlice data d.quantity)).sum =
      circumference *
        (((data.map (fun d => getSinglePercentage data d.quantity)).sum : ℚ) : ℝ)
        / 100 :=
    sum_slices_factored data (fun d => getSinglePercentage data d.quantity)
  refine ⟨hfact, ?_, by norm_num [circumference, radius], ?_⟩
  · rw [hfact, sum_percentages_eq_100 data hT.ne']
    push_cast
    ring
  · intro hq d hd
    have hT4 : totalPercentage data = 4 := by
      rw [totalPercentage_eq_sum, hq]
      norm_num
    have h1 : d.quantity = 1 := by
      have hmem : d.quantity ∈ data.map PieData.quantity :=
        List.mem_map_of_mem PieData.quantity hd
      rw [hq] at hmem
      simpa using hmem
    rw [getSlice, getSinglePercentage, h1, hT4]
    push_cast
    ring

/-- Witness for C1 at a four-slice input with quantities `[1,1,1,1]`. -/
theorem c1_slice_sum_witness :
    ([PieData.mk "a" 1 "c1", PieData.mk "b" 1 "c2", PieData.mk "c" 1 "c3",
        PieData.mk "d" 1 "c4"] : List PieData) ≠ [] ∧
    (([PieData.mk "a" 1 "c1", PieData.mk "b" 1 "c2", PieData.mk "c" 1 "c3",
        PieData.mk "d" 1 "c4"] : List PieData).map PieData.quantity = [1, 1, 1, 1]) ∧
    getSlice [PieData.mk "a" 1 "c1", PieData.mk "b" 1 "c2", PieData.mk "c" 1 "c3",
        PieData.mk "d" 1 "c4"] 1 = circumference / 4 :=
  ⟨by decide, by decide,
   (c1_slice_sum [PieData.mk "a" 1 "c1", PieData.mk "b" 1 "c2",
        PieData.mk "c" 1 "c3", PieData.mk "d" 1 "c4"] (by decide)
        (by decide)).2.2.2 (by decide) (PieData.mk "a" 1 "c1") (by decide)⟩

/-- C3: `totalPercentage` is the sum of all `quantity` fields; on the
degenerate inputs (empty list or all-zero quantities) the total is `0`
and `getSinglePercentage` divides by zero, producing the undefined
result `NaN`; the component performs no guard — the embedding is total
and returns `NaN` rather than signalling any error. -/
theorem c3_total_sum_and_nan (data : List PieData) :
    totalPercentage data = (data.map PieData.quantity).sum ∧
    ((∀ d ∈ data, d.quantity = 0) →
      totalPercentage data = 0 ∧
      ∀ d ∈ data, getSinglePercentageJS data d.quantity = JSNum.nan) := by
  refine ⟨totalPercentage_eq_sum data, fun h0 => ?_⟩
  have hT : totalPercentage data = 0 := by
    rw [totalPercentage_eq_sum]
    apply List.sum_eq_zero
    intro q hq
    obtain ⟨d, hd, rfl⟩ := List.mem_map.mp hq
    exact h0 d hd
  refine ⟨hT, fun d hd => ?_⟩
  simp [getSinglePercentageJS, jsDiv, hT, h0 d hd]

/-- Witness for C3 at the all-zero one-element input. -/
theorem c3_total_sum_and_nan_witness :
    totalPercentage [PieData.mk "Lorem" 0 "hsl(20 60% 50%)"] = 0 ∧
    getSinglePercentageJS [PieData.mk "Lorem" 0 "hsl(20 60% 50%)"] 0 = JSNum.nan := by
  have h := (c3_total_sum_and_nan [PieData.mk "Lorem" 0 "hsl(20 60% 50%)"]).2
    (by decide)
  exact ⟨h.1, h.2 (PieData.mk "Lorem" 0 "hsl(20 60% 50%)") (by decide)⟩

/-- Appending a digit multiplies the accumulated decimal value by ten. -/
theorem decimalVal_append_digit (l : List Char) (c : Char) :
    decimalVal (l ++ [c]) = decimalVal l * 10 + (c.toNat - 48) := by
  simp [decimalVal, List.foldl_append]

/-- `Nat.digitChar` of a digit has the expected code point. -/
theorem digitChar_toNat_of_lt : ∀ k, k < 10 → (Nat.digitChar k).toNat = 48 + k := by
  decide

/-- `Nat.digitChar` of a digit is never the dash character. -/
theorem digitChar_ne_dash : ∀ k, k < 10 → Nat.digitChar k ≠ '-' := by
  decide

/-- With enough fuel, reading `natToCharsAux` back as a decimal value
returns the number itself. -/
theorem natToCharsAux_val :
    ∀ (fuel n : ℕ), n ≤ fuel → decimalVal (natToCharsAux fuel n) = n := by
  intro fuel
  induction fuel with
  | zero =>
      intro n hn
      interval_cases n
      simp [natToCharsAux, decimalVal]
  | succ f ih =>
      intro n hn
      by_cases h0 : n = 0
      · simp [natToCharsAux, h0, decimalVal]
      · have hlt : n / 10 < n := Nat.div_lt_self (Nat.pos_of_ne_zero h0) (by norm_num)
        have hdiv : n / 10 ≤ f := by omega
        simp only [natToCharsAux, h0, if_false]
        rw [decimalVal_append_digit, ih (n / 10) hdiv,
          digitChar_toNat_of_lt (n % 10) (Nat.mod_lt _ (by norm_num))]
        omega

/-- Every character emitted by `natToCharsAux` is a digit, never a dash. -/
theorem natToCharsAux_ne_dash :
    ∀ (fuel n : ℕ), ∀ c ∈ natToCharsAux fuel n, c ≠ '-' := by
  intro fuel
  induction fuel with
  | zero => intro n c hc; simp [natToCharsAux] at hc
  | succ f ih =>
      intro n c hc
      by_cases h0 : n = 0
      · simp [natToCharsAux, h0] at hc
      · simp only [natToCharsAux, h0, if_false, List.mem_append,
          List.mem_singleton] at hc
        rcases hc with hc | hc
        · exact ih (n / 10) c hc
        · subst hc
          exact digitChar_ne_dash (n % 10) (Nat.mod_lt _ (by norm_num))

/-- Reading the decimal rendering back as a value is the identity. -/
theorem natToString_val (n : ℕ) : decimalVal ((natToString n).data) = n := by
  by_cases h0 : n = 0
  · subst h0
    decide
  · have hdata : (natToString n).data = natToCharsAux (n + 1) n := by
      rw [natToString, if_neg h0]
    rw [hdata, natToCharsAux_val (n + 1) n (Nat.le_succ n)]

/-- The decimal rendering of an index is injective. -/
theorem natToString_data_inj (m n : ℕ)
    (h : (natToString m).data = (natToString n).data) : m = n := by
  rw [← natToString_val m, ← natToString_val n, h]

/-- The decimal rendering of an index contains no dash. -/
theorem natToString_ne_dash (n : ℕ) : ∀ c ∈ (natToString n).data, c ≠ '-' := by
  by_cases h0 : n = 0
  · subst h0
    intro c hc
    have : ("0" : String).data = ['0'] := rfl
    rw [natToString, if_pos rfl, this] at hc
    simp at hc
    subst hc
    decide
  · intro c hc
    rw [natToString, if_neg h0] at hc
    exact natToCharsAux_ne_dash (n + 1) n c hc

/-- Two decompositions of a list around a marker character absent from
both prefixes have equal prefixes and equal suffixes. -/
theorem append_cons_inj (c : Char) :
    ∀ (l1 l2 t1 t2 : List Char), c ∉ l1 → c ∉ l2 →
      l1 ++ c :: t1 = l2 ++ c :: t2 → l1 = l2 ∧ t1 = t2 := by
  intro l1
  induction l1 with
  | nil =>
      intro l2 t1 t2 _ h2 heq
      cases l2 with
      | nil => simpa using heq
      | cons b bs =>
          exfalso
          simp only [List.nil_append, List.cons_append] at heq
          injection heq with hb _
          apply h2
          rw [hb]
          exact List.mem_cons_self b bs
  | cons a as ih =>
      intro l2 t1 t2 h1 h2 heq
      cases l2 with
      | nil =>
          exfalso
          simp only [List.nil_append, List.cons_append] at heq
          injection heq with hb _
          apply h1
          rw [← hb]
          exact List.mem_cons_self a as
      | cons b bs =>
          simp only [List.cons_append] at heq
          injection heq with hab hrest
          have h1' : c ∉ as := fun hmem => h1 (List.mem_cons_of_mem a hmem)
          have h2' : c ∉ bs := fun hmem => h2 (List.mem_cons_of_mem b hmem)
          obtain ⟨he, ht⟩ := ih bs t1 t2 h1' h2' hrest
          exact ⟨by rw [hab, he], ht⟩

/-- C4: `getId` replaces only the first space of the label and appends
the position index, so entries at distinct indices always receive
distinct identifiers; `"Ipsum Dolor"` and `"Ipsum-Dolor"` at the same
index sanitize identically and collide, and later spaces survive. -/
theorem c4_getId_distinct :
    (∀ (l1 l2 : String) (i j : ℕ), i ≠ j → getId l1 i ≠ getId l2 j) ∧
    getId "Ipsum Dolor" 1 = getId "Ipsum-Dolor" 1 ∧
    getId "Lorem Ipsum Dolor" 0 = "Lorem-Ipsum Dolor-0" := by
  refine ⟨?_, by decide, by decide⟩
  intro l1 l2 i j hij heq
  have hdata : replaceFirstChar ' ' '-' l1.data ++ '-' :: (natToString i).data =
      replaceFirstChar ' ' '-' l2.data ++ '-' :: (natToString j).data :=
    congrArg String.data heq
  have hrev := congrArg List.reverse hdata
  simp only [List.reverse_append, List.reverse_cons, List.append_assoc,
    List.singleton_append] at hrev
  have hnd1 : '-' ∉ ((natToString i).data).reverse := fun hmem =>
    natToString_ne_dash i '-' (List.mem_reverse.mp hmem) rfl
  have hnd2 : '-' ∉ ((natToString j).data).reverse := fun hmem =>
    natToString_ne_dash j '-' (List.mem_reverse.mp hmem) rfl
  obtain ⟨hD, -⟩ := append_cons_inj '-' _ _ _ _ hnd1 hnd2 hrev
  have hDi : (natToString i).data = (natToString j).data := by
    have := congrArg List.reverse hD
    simpa using this
  exact hij (natToString_data_inj i j hDi)

/-- Witness for C4: the same label at indices `0` and `1` gets distinct
identifiers. -/
theorem c4_getId_distinct_witness : getId "Lorem" 0 ≠ getId "Lorem" 1 :=
  c4_getId_distinct.1 "Lorem" "Lorem" 0 1 (by decide)

/-- `split` never returns an empty array. -/
theorem jsSplitChar_ne_nil (sep : Char) : ∀ l, jsSplitChar sep l ≠ [] := by
  intro l
  cases l with
  | nil => simp [jsSplitChar]
  | cons c cs =>
      cases h : jsSplitChar sep cs with
      | nil => simp [jsSplitChar, h]
      | cons p ps =>
          by_cases hc : c = sep <;> simp [jsSplitChar, h, hc]

/-- Splitting a separator-free string yields that one part. -/
theorem jsSplitChar_no_sep (sep : Char) :
    ∀ l, (∀ c ∈ l, c ≠ sep) → jsSplitChar sep l = [l] := by
  intro l
  induction l with
  | nil => intro _; rfl
  | cons c cs ih =>
      intro h
      have hc : c ≠ sep := h c (List.mem_cons_self c cs)
      have hcs : ∀ x ∈ cs, x ≠ sep := fun x hx => h x (List.mem_cons_of_mem c hx)
      simp [jsSplitChar, ih hcs, hc]

/-- Splitting after a separator-free prefix peels off that prefix. -/
theorem jsSplitChar_append (sep : Char) :
    ∀ (l1 l2 : List Char), (∀ c ∈ l1, c ≠ sep) →
      jsSplitChar sep (l1 ++ sep :: l2) = l1 :: jsSplitChar sep l2 := by
  intro l1
  induction l1 with
  | nil =>
      intro l2 _
      cases h : jsSplitChar sep l2 with
      | nil => exact absurd h (jsSplitChar_ne_nil sep l2)
      | cons p ps => simp [jsSplitChar, h]
  | cons c cs ih =>
      intro l2 h
      have hc : c ≠ sep := h c (List.mem_cons_self c cs)
      have hcs : ∀ x ∈ cs, x ≠ sep := fun x hx => h x (List.mem_cons_of_mem c hx)
      simp [jsSplitChar, ih l2 hcs, hc]

/-- A string with exactly two separators splits into its three parts. -/
theorem jsSplitChar_three (sep : Char) (p0 p1 p2 : List Char)
    (h0 : ∀ c ∈ p0, c ≠ sep) (h1 : ∀ c ∈ p1, c ≠ sep)
    (h2 : ∀ c ∈ p2, c ≠ sep) :
    jsSplitChar sep (p0 ++ sep :: (p1 ++ sep :: p2)) = [p0, p1, p2] := by
  rw [jsSplitChar_append sep p0 _ h0, jsSplitChar_append sep p1 p2 h1,
    jsSplitChar_no_sep sep p2 h2]

/-- C5 counterexample: on the malformed color `"red"` the code does not
fail — it silently returns the invalid color string
`"red% NaN% undefined"` — whereas the spec-modelled operation rejects
the input. -/
theorem c5_counterexample :
    colorBrightness "red" = "red% NaN% undefined" ∧
    colorBrightnessSpec "red" = none := by
  constructor <;> decide

/-- C5 (amended): on any color string with no `%` at all,
`colorBrightness` performs no validation and silently returns the
invalid color string built from the `NaN` and `undefined` placeholders. -/
theorem c5_no_failure_on_malformed (s : String)
    (h : ∀ c ∈ s.data, c ≠ '%') :
    colorBrightness s = s ++ "% NaN% undefined" := by
  apply String.ext
  simp only [String.data_append]
  rw [colorBrightness]
  simp [jsSplitChar_no_sep '%' s.data h, jsNumToString]

/-- Witness for the amended C5 at the input `"red"`. -/
theorem c5_no_failure_on_malformed_witness :
    (∀ c ∈ ("red" : String).data, c ≠ '%') ∧
    colorBrightness "red" = "red" ++ "% NaN% undefined" :=
  ⟨by decide, c5_no_failure_on_malformed "red" (by decide)⟩

/-- C6 counterexample: on the repository's color format the result is
not "the same string with the third component replaced": the template
re-inserts a space after each `%`, so `"hsl(20 60% 50%)"` becomes
`"hsl(20 60% 20% )"` (note the extra space), not `"hsl(20 60% 20%)"`. -/
theorem c6_counterexample :
    colorBrightness "hsl(20 60% 50%)" = "hsl(20 60% 20% )" ∧
    "hsl(20 60% 20% )" ≠ "hsl(20 60% 20%)" := by
  constructor <;> decide

/-- C6 (amended): for a color of three `%`-separated parts whose middle
part parses to the integer `v` (in `hsl(h s% l%)` colors this is the
third, lightness-like numeric component), `colorBrightness` keeps the
first and last parts and replaces the parsed value by `v - 30` when
`v > 30`, else `v + 20` — re-spacing the output as
`p0 ++ "% " ++ value ++ "% " ++ p2` rather than replacing in place. -/
theorem c6_colorBrightness_formula (p0 p1 p2 : String)
    (h0 : ∀ c ∈ p0.data, c ≠ '%') (h1 : ∀ c ∈ p1.data, c ≠ '%')
    (h2 : ∀ c ∈ p2.data, c ≠ '%') (v : Int)
    (hv : jsParseInt p1.data = some v) :
    colorBrightness (p0 ++ "%" ++ p1 ++ "%" ++ p2) =
      p0 ++ "% " ++ intToString (if v > 30 then v - 30 else v + 20) ++
        "% " ++ p2 := by
  apply String.ext
  have hdata : (p0 ++ "%" ++ p1 ++ "%" ++ p2).data =
      p0.data ++ '%' :: (p1.data ++ '%' :: p2.data) := by
    simp [String.data_append]
  rw [colorBrightness, hdata, jsSplitChar_three '%' p0.data p1.data p2.data h0 h1 h2]
  simp [hv, jsNumToString]

/-- Witness for the amended C6 at the mock color `"hsl(20 60% 50%)"`. -/
theorem c6_colorBrightness_formula_witness :
    jsParseInt (" 50" : String).data = some 50 ∧
    colorBrightness ("hsl(20 60" ++ "%" ++ " 50" ++ "%" ++ ")") =
      "hsl(20 60" ++ "% " ++ intToString 20 ++ "% " ++ ")" :=
  ⟨by decide,
   by
    have h := c6_colorBrightness_formula "hsl(20 60" " 50" ")"
      (by decide) (by decide) (by decide) 50 (by decide)
    simpa using h⟩

/-- C7: the mask radius of the slice at index `i` is `16 - n + i` for an
`n`-slice input, increases by exactly `1` per index step, and for a
three-slice input the mask radii are `13`, `14`, `15`. -/
theorem c7_maskRadius_formula (data : List PieData) (i : ℕ) :
    maskRadius data i = 16 - (data.length : ℚ) + i ∧
    maskRadius data (i + 1) = maskRadius data i + 1 ∧
    (data.length = 3 →
      maskRadius data 0 = 13 ∧ maskRadius data 1 = 14 ∧ maskRadius data 2 = 15) := by
  refine ⟨rfl, ?_, fun h3 => ?_⟩
  · simp only [maskRadius]
    push_cast
    ring
  · refine ⟨?_, ?_, ?_⟩ <;> simp [maskRadius, minRadiusMask, radius, h3] <;> norm_num

/-- Witness for C7 at the three-slice mock input. -/
theorem c7_maskRadius_formula_witness :
    ([PieData.mk "Lorem" 70 "c1", PieData.mk "Ipsum Dolor" 10 "c2",
      PieData.mk "Sit" 20 "c3"] : List PieData).length = 3 ∧
    maskRadius [PieData.mk "Lorem" 70 "c1", PieData.mk "Ipsum Dolor" 10 "c2",
      PieData.mk "Sit" 20 "c3"] 0 = 13 :=
  ⟨rfl, ((c7_maskRadius_formula [PieData.mk "Lorem" 70 "c1",
      PieData.mk "Ipsum Dolor" 10 "c2", PieData.mk "Sit" 20 "c3"] 0).2.2 rfl).1⟩

/-- C8: `getDelay` is exactly `0.5 + index / 3` seconds, strictly
increasing in the index, and a function of the index alone; at indices
`0`, `1`, `2` it is `1/2`, `5/6`, `7/6` seconds. -/
theorem c8_getDelay_formula :
    (∀ i : ℕ, getDelay i = 1 / 2 + (i : ℚ) / 3) ∧
    (∀ i j : ℕ, i < j → getDelay i < getDelay j) ∧
    getDelay 0 = 1 / 2 ∧ getDelay 1 = 5 / 6 ∧ getDelay 2 = 7 / 6 := by
  refine ⟨fun i => rfl, fun i j hij => ?_, by norm_num [getDelay], by
    norm_num [getDelay], by norm_num [getDelay]⟩
  have h : (i : ℚ) < (j : ℚ) := by exact_mod_cast hij
  unfold getDelay
  linarith

/-- Witness for C8 at indices `0 < 1`. -/
theorem c8_getDelay_formula_witness : getDelay 0 < getDelay 1 :=
  c8_getDelay_formula.2.1 0 1 (by decide)

/-- C9: `getRotate` reads every list position strictly below its index
with no bounds check: in the `Option`-indexed embedding the result
exists exactly when `index ≤ data.length`, and is `none` (an
out-of-bounds access happens) for every strictly larger index. -/
theorem c9_getRotate_bounds (data : List PieData) (i : ℕ) :
    (i ≤ data.length → (getRotate? data i).isSome) ∧
    (data.length < i → getRotate? data i = none) := by
  induction i with
  | zero =>
      exact ⟨fun _ => rfl, fun h => absurd h (Nat.not_lt_zero _)⟩
  | succ n ih =>
      constructor
      · intro h
        have hn : n < data.length := Nat.lt_of_succ_le h
        obtain ⟨a, ha⟩ := Option.isSome_iff_exists.mp (ih.1 (Nat.le_of_lt hn))
        simp [getRotate?, ha, List.getElem?_eq_getElem hn]
      · intro h
        have hn : data.length ≤ n := Nat.lt_succ_iff.mp h
        have hnone : data[n]? = none := List.getElem?_eq_none hn
        cases hr : getRotate? data n <;> simp [getRotate?, hr, hnone]

/-- Witness for C9: with one slice, index `1` is defined and index `2`
is out of bounds. -/
theorem c9_getRotate_bounds_witness :
    (getRotate? [PieData.mk "Lorem" 70 "c1"] 1).isSome ∧
    getRotate? [PieData.mk "Lorem" 70 "c1"] 2 = none :=
  ⟨(c9_getRotate_bounds [PieData.mk "Lorem" 70 "c1"] 1).1 (by decide),
   (c9_getRotate_bounds [PieData.mk "Lorem" 70 "c1"] 2).2 (by decide)⟩

/-- C10: for a non-empty input every mask radius `16 - n + i` with
`i < n` is strictly below the drawing radius `16`; there is no clamp,
so with more than `16` entries the first mask radius is negative, and
with exactly `16` entries it is zero. -/
theorem c10_maskRadius_bounds (data : List PieData) (_hne : data ≠ []) :
    (∀ i < data.length, maskRadius data i < 16) ∧
    (16 < data.length → maskRadius data 0 < 0) ∧
    (data.length = 16 → maskRadius data 0 = 0) := by
  refine ⟨fun i hi => ?_, fun h16 => ?_, fun h16 => ?_⟩
  · have h : (i : ℚ) < (data.length : ℚ) := by exact_mod_cast hi
    simp only [maskRadius, minRadiusMask, radius]
    linarith
  · have h : (16 : ℚ) < (data.length : ℚ) := by exact_mod_cast h16
    simp only [maskRadius, minRadiusMask, radius, Nat.cast_zero]
    linarith
  · simp [maskRadius, minRadiusMask, radius, h16]

/-- Witness for C10 on a `17`-element input: the first mask radius is
negative. -/
theorem c10_maskRadius_bounds_witness :
    List.replicate 17 (PieData.mk "Lorem" 1 "c1") ≠ [] ∧
    16 < (List.replicate 17 (PieData.mk "Lorem" 1 "c1")).length ∧
    maskRadius (List.replicate 17 (PieData.mk "Lorem" 1 "c1")) 0 < 0 :=
  ⟨by decide, by decide,
   (c10_maskRadius_bounds (List.replicate 17 (PieData.mk "Lorem" 1 "c1"))
      (by decide)).2.1 (by decide)⟩

end PieChart
